import Mathlib

/-!
Verification of the Data-Cleaning-Scripts repository core: the prefix trie
(`trie.go`), the distribution aggregator (`calc_distribution.go`), the outlier
detector (`prefix_extractor.go`), the ratio classifier
(`for_identify_passwords.go`) and the prefix-statistics generator.

Go `map[rune]*TrieNode` is embedded as an association list `List (Char × TrieNode)`;
the Go code only iterates maps to take sums or to search, so list order is
irrelevant to every property proved below.  Go `float64` arithmetic is embedded
as exact rational arithmetic over `ℚ`; all the numeric claims are about the
symbolic formulas of the code.  Words are `List Char` (Go iterates strings by
code point / rune).
-/

namespace DataCleaning

/-- `TrieNode` from trie.go: children map plus end-of-word count. -/
inductive TrieNode where
  | mk (children : List (Char × TrieNode)) (endOfWordCount : Nat)

def TrieNode.children : TrieNode → List (Char × TrieNode)
  | .mk cs _ => cs

def TrieNode.endOfWordCount : TrieNode → Nat
  | .mk _ k => k

/-- A fresh node, as allocated by `NewTrie` / `Insert`. -/
def emptyNode : TrieNode := .mk [] 0

/-- Reading `node.children[char]` from the Go map. -/
def lookupChild : List (Char × TrieNode) → Char → Option TrieNode
  | [], _ => none
  | (c, t) :: rest, d => if c = d then some t else lookupChild rest d

/-- Writing `node.children[char] = n` when the key is already present. -/
def replaceChild : List (Char × TrieNode) → Char → TrieNode → List (Char × TrieNode)
  | [], _, _ => []
  | (c, t) :: rest, d, n => if c = d then (c, n) :: rest else (c, t) :: replaceChild rest d n

/-- The loop of `Trie.Insert`, recursively: walk `word`, creating missing
nodes, and increment `endOfWordCount` at the final node. -/
def insertNode : List Char → TrieNode → TrieNode
  | [], .mk cs k => .mk cs (k + 1)
  | c :: w, .mk cs k =>
    match lookupChild cs c with
    | some child => .mk (replaceChild cs c (insertNode w child)) k
    | none => .mk (cs ++ [(c, insertNode w emptyNode)]) k

mutual

/-- `countWordsInSubTrie`: end-of-word count of the node plus the counts of
all children (the Go map iteration summed). -/
def countWordsInSubTrie : TrieNode → Nat
  | .mk cs k => k + countChildrenWords cs

/-- Sum of `countWordsInSubTrie` over a children list. -/
def countChildrenWords : List (Char × TrieNode) → Nat
  | [] => 0
  | (_, t) :: rest => countWordsInSubTrie t + countChildrenWords rest

end

/-- The shared prefix-walking loop of `CountWordsWithPrefix`,
`CountStandaloneOccurrences` and `collectFollowingChars`: follow the
characters from `node`, `none` when a child is missing. -/
def findNode : List Char → TrieNode → Option TrieNode
  | [], n => some n
  | c :: p, .mk cs _ =>
    match lookupChild cs c with
    | some child => findNode p child
    | none => none

/-- `Trie` from trie.go. -/
structure Trie where
  root : TrieNode

/-- `NewTrie()`. -/
def NewTrie : Trie := ⟨emptyNode⟩

/-- `(*Trie).Insert`. -/
def Trie.Insert (t : Trie) (word : List Char) : Trie := ⟨insertNode word t.root⟩

/-- `(*Trie).CountWordsWithPrefix`: 0 when the path is absent, else the
subtree total. -/
def Trie.CountWordsWithPrefix (t : Trie) (p : List Char) : Nat :=
  match findNode p t.root with
  | some n => countWordsInSubTrie n
  | none => 0

/-- `(*Trie).CountStandaloneOccurrences`: 0 when the path is absent, else the
end-of-word count at the node. -/
def Trie.CountStandaloneOccurrences (t : Trie) (p : List Char) : Nat :=
  match findNode p t.root with
  | some n => n.endOfWordCount
  | none => 0

/-- A trie built from the empty trie by a sequence of `Insert` calls. -/
def buildTrie (ws : List (List Char)) : Trie := ws.foldl Trie.Insert NewTrie

/-- `p` is a leading prefix of `w` (word-over-runes version of what the spec
calls "having P as a prefix", including `p = w`). -/
def isLeading : List Char → List Char → Bool
  | [], _ => true
  | _ :: _, [] => false
  | c :: p, d :: w => c = d && isLeading p w

lemma countWordsInSubTrie_emptyNode : countWordsInSubTrie emptyNode = 0 := rfl

lemma countChildrenWords_append (xs ys : List (Char × TrieNode)) :
    countChildrenWords (xs ++ ys) = countChildrenWords xs + countChildrenWords ys := by
  induction xs with
  | nil => simp [countChildrenWords]
  | cons x rest ih =>
      obtain ⟨c, t⟩ := x
      simp [countChildrenWords, ih]
      omega

lemma lookupChild_replaceChild_ne (cs : List (Char × TrieNode)) (d : Char) (n : TrieNode)
    (c : Char) (h : c ≠ d) : lookupChild (replaceChild cs d n) c = lookupChild cs c := by
  induction cs with
  | nil => rfl
  | cons x rest ih =>
      obtain ⟨e, t⟩ := x
      by_cases he : e = d
      · subst he
        have hdc : ¬e = c := fun hh => h hh.symm
        simp [replaceChild, lookupChild, hdc]
      · simp [replaceChild, he, lookupChild, ih]

lemma lookupChild_replaceChild_eq (cs : List (Char × TrieNode)) (c : Char)
    (n child : TrieNode) (h : lookupChild cs c = some child) :
    lookupChild (replaceChild cs c n) c = some n := by
  induction cs with
  | nil => simp [lookupChild] at h
  | cons x rest ih =>
      obtain ⟨e, t⟩ := x
      by_cases he : e = c
      · subst he
        simp [replaceChild, lookupChild]
      · simp [lookupChild, he] at h
        simp [replaceChild, he, lookupChild, ih h]

lemma lookupChild_append_ne (cs : List (Char × TrieNode)) (c d : Char) (x : TrieNode)
    (h : c ≠ d) : lookupChild (cs ++ [(d, x)]) c = lookupChild cs c := by
  induction cs with
  | nil =>
      have hdc : ¬d = c := fun hh => h hh.symm
      simp [lookupChild, hdc]
  | cons y rest ih =>
      obtain ⟨e, t⟩ := y
      by_cases he : e = c
      · simp [lookupChild, he]
      · simp [lookupChild, he, ih]

lemma lookupChild_append_self (cs : List (Char × TrieNode)) (c : Char) (x : TrieNode)
    (h : lookupChild cs c = none) : lookupChild (cs ++ [(c, x)]) c = some x := by
  induction cs with
  | nil => simp [lookupChild]
  | cons y rest ih =>
      obtain ⟨e, t⟩ := y
      by_cases he : e = c
      · simp [lookupChild, he] at h
      · simp [lookupChild, he] at h ⊢
        exact ih h

lemma countChildrenWords_replaceChild (cs : List (Char × TrieNode)) (c : Char)
    (n child : TrieNode) (h : lookupChild cs c = some child) :
    countChildrenWords (replaceChild cs c n) + countWordsInSubTrie child =
      countChildrenWords cs + countWordsInSubTrie n := by
  induction cs with
  | nil => simp [lookupChild] at h
  | cons x rest ih =>
      obtain ⟨e, t⟩ := x
      by_cases he : e = c
      · subst he
        simp [lookupChild] at h
        subst h
        simp [replaceChild, countChildrenWords]
        omega
      · simp [lookupChild, he] at h
        simp [replaceChild, he, countChildrenWords]
        have hih := ih h
        omega


lemma countWordsInSubTrie_insertNode (w : List Char) (n : TrieNode) :
    countWordsInSubTrie (insertNode w n) = countWordsInSubTrie n + 1 := by
  induction w generalizing n with
  | nil =>
      obtain ⟨cs, k⟩ := n
      simp [insertNode, countWordsInSubTrie]
      omega
  | cons c w ih =>
      obtain ⟨cs, k⟩ := n
      cases hl : lookupChild cs c with
      | some child =>
          have hrep := countChildrenWords_replaceChild cs c (insertNode w child) child hl
          have hins := ih child
          simp [insertNode, hl, countWordsInSubTrie]
          omega
      | none =>
          have hins := ih emptyNode
          simp [insertNode, hl, countWordsInSubTrie, countChildrenWords_append,
            countChildrenWords, emptyNode] at hins ⊢
          omega

lemma countWordsWithPre_mk_cons (cs : List (Char × TrieNode)) (k : Nat) (c : Char)
    (p : List Char) :
    Trie.CountWordsWithPrefix ⟨.mk cs k⟩ (c :: p) =
      match lookupChild cs c with
      | some child => Trie.CountWordsWithPrefix ⟨child⟩ p
      | none => 0 := by
  cases hl : lookupChild cs c with
  | some child => simp [ Trie.CountWordsWithPrefix, findNode, hl]
  | none => simp [ Trie.CountWordsWithPrefix, findNode, hl]

lemma countWordsWithPre_emptyNode (p : List Char) :
    Trie.CountWordsWithPrefix ⟨emptyNode⟩ p = 0 := by
  cases p with
  | nil => simp [ Trie.CountWordsWithPrefix, findNode, countWordsInSubTrie_emptyNode]
  | cons c p => simp [ Trie.CountWordsWithPrefix, emptyNode, findNode, lookupChild]

/-- Effect of one `Insert` on `CountWordsWithPrefix`: the count grows by one
exactly when the inserted word has `p` as a prefix. -/
lemma countWordsWithPre_insert (p w : List Char) (n : TrieNode) :
    Trie.CountWordsWithPrefix ⟨insertNode w n⟩ p =
      Trie.CountWordsWithPrefix ⟨n⟩ p + (if isLeading p w then 1 else 0) := by
  induction p generalizing w n with
  | nil =>
      simp [ Trie.CountWordsWithPrefix, findNode, isLeading,
        countWordsInSubTrie_insertNode]
  | cons c p ih =>
      cases w with
      | nil =>
          obtain ⟨cs, k⟩ := n
          simp [insertNode, isLeading, countWordsWithPre_mk_cons]
      | cons d w =>
          obtain ⟨cs, k⟩ := n
          by_cases hcd : c = d
          · subst hcd
            cases hl : lookupChild cs c with
            | some child =>
                have h1 := lookupChild_replaceChild_eq cs c (insertNode w child) child hl
                simp [insertNode, hl, countWordsWithPre_mk_cons, h1, isLeading, ih]
            | none =>
                have h1 := lookupChild_append_self cs c (insertNode w emptyNode) hl
                simp [insertNode, hl, countWordsWithPre_mk_cons, h1, isLeading, ih,
                  countWordsWithPre_emptyNode]
          · cases hl : lookupChild cs d with
            | some child =>
                have h1 := lookupChild_replaceChild_ne cs d (insertNode w child) c hcd
                simp [insertNode, hl, countWordsWithPre_mk_cons, h1, isLeading, hcd]
            | none =>
                have h1 := lookupChild_append_ne cs c d (insertNode w emptyNode) hcd
                simp [insertNode, hl, countWordsWithPre_mk_cons, h1, isLeading, hcd]

lemma countWordsWithPre_foldl (ws : List (List Char)) (t : Trie) (p : List Char) :
    Trie.CountWordsWithPrefix (ws.foldl Trie.Insert t) p =
      Trie.CountWordsWithPrefix t p + (ws.filter (fun w => isLeading p w)).length := by
  induction ws generalizing t with
  | nil => simp
  | cons w ws ih =>
      have hstep : Trie.CountWordsWithPrefix (t.Insert w) p =
          Trie.CountWordsWithPrefix t p + (if isLeading p w then 1 else 0) := by
        obtain ⟨n⟩ := t
        exact countWordsWithPre_insert p w n
      rw [List.foldl_cons, ih, hstep]
      by_cases hw : isLeading p w
      · simp [List.filter, hw]
        omega
      · simp [List.filter, hw]

lemma countStandalone_mk_cons (cs : List (Char × TrieNode)) (k : Nat) (c : Char)
    (p : List Char) :
    Trie.CountStandaloneOccurrences ⟨.mk cs k⟩ (c :: p) =
      match lookupChild cs c with
      | some child => Trie.CountStandaloneOccurrences ⟨child⟩ p
      | none => 0 := by
  cases hl : lookupChild cs c with
  | some child => simp [Trie.CountStandaloneOccurrences, findNode, hl]
  | none => simp [Trie.CountStandaloneOccurrences, findNode, hl]

lemma countStandalone_emptyNode (p : List Char) :
    Trie.CountStandaloneOccurrences ⟨emptyNode⟩ p = 0 := by
  cases p with
  | nil => simp [Trie.CountStandaloneOccurrences, findNode, emptyNode, TrieNode.endOfWordCount]
  | cons c p => simp [Trie.CountStandaloneOccurrences, emptyNode, findNode, lookupChild]

/-- Effect of one `Insert` on `CountStandaloneOccurrences`: the count grows
by one exactly when the inserted word equals `p`. -/
lemma countStandalone_insert (p w : List Char) (n : TrieNode) :
    Trie.CountStandaloneOccurrences ⟨insertNode w n⟩ p =
      Trie.CountStandaloneOccurrences ⟨n⟩ p + (if p = w then 1 else 0) := by
  induction p generalizing w n with
  | nil =>
      cases w with
      | nil =>
          obtain ⟨cs, k⟩ := n
          simp [insertNode, Trie.CountStandaloneOccurrences, findNode, TrieNode.endOfWordCount]
      | cons d w =>
          obtain ⟨cs, k⟩ := n
          cases hl : lookupChild cs d with
          | some child =>
              simp [insertNode, hl, Trie.CountStandaloneOccurrences, findNode,
                TrieNode.endOfWordCount]
          | none =>
              simp [insertNode, hl, Trie.CountStandaloneOccurrences, findNode,
                TrieNode.endOfWordCount]
  | cons c p ih =>
      cases w with
      | nil =>
          obtain ⟨cs, k⟩ := n
          simp [insertNode, countStandalone_mk_cons]
      | cons d w =>
          obtain ⟨cs, k⟩ := n
          by_cases hcd : c = d
          · subst hcd
            cases hl : lookupChild cs c with
            | some child =>
                have h1 := lookupChild_replaceChild_eq cs c (insertNode w child) child hl
                simp [insertNode, hl, countStandalone_mk_cons, h1, ih]
            | none =>
                have h1 := lookupChild_append_self cs c (insertNode w emptyNode) hl
                simp [insertNode, hl, countStandalone_mk_cons, h1, ih,
                  countStandalone_emptyNode]
          · have hne : ¬(c :: p = d :: w) := by
              intro hh
              injection hh with h1 h2
              exact hcd h1
            cases hl : lookupChild cs d with
            | some child =>
                have h1 := lookupChild_replaceChild_ne cs d (insertNode w child) c hcd
                simp [insertNode, hl, countStandalone_mk_cons, h1, hne]
            | none =>
                have h1 := lookupChild_append_ne cs c d (insertNode w emptyNode) hcd
                simp [insertNode, hl, countStandalone_mk_cons, h1, hne]

lemma countStandalone_foldl (ws : List (List Char)) (t : Trie) (p : List Char) :
    Trie.CountStandaloneOccurrences (ws.foldl Trie.Insert t) p =
      Trie.CountStandaloneOccurrences t p + (ws.filter (fun w => decide (w = p))).length := by
  induction ws generalizing t with
  | nil => simp
  | cons w ws ih =>
      have hstep : Trie.CountStandaloneOccurrences (t.Insert w) p =
          Trie.CountStandaloneOccurrences t p + (if p = w then 1 else 0) := by
        obtain ⟨n⟩ := t
        exact countStandalone_insert p w n
      rw [List.foldl_cons, ih, hstep]
      by_cases hw : w = p
      · subst hw
        simp [List.filter]
        omega
      · have hpw : ¬(p = w) := fun hh => hw hh.symm
        simp [List.filter, hw, hpw]

/-- C1: a trie built from the empty trie by `Insert` calls answers
`CountWordsWithPrefix p` with the number of inserted words having `p` as a
prefix (exact matches included), and answers 0 whenever the path for `p` is
absent from the trie. -/
theorem c1_count_words_with_pre_correct (ws : List (List Char)) (p : List Char) :
    Trie.CountWordsWithPrefix (buildTrie ws) p =
        (ws.filter (fun w => isLeading p w)).length ∧
      ((findNode p (buildTrie ws).root).isNone = true →
        Trie.CountWordsWithPrefix (buildTrie ws) p = 0) := by
  constructor
  · rw [buildTrie, countWordsWithPre_foldl]
    rw [show NewTrie = ⟨emptyNode⟩ from rfl, countWordsWithPre_emptyNode]
    omega
  · intro h
    cases hf : findNode p (buildTrie ws).root with
    | some n => rw [hf] at h; simp at h
    | none => simp [ Trie.CountWordsWithPrefix, hf]

/-- Witness for C1: concrete evaluations, including an absent path. -/
theorem c1_count_words_with_pre_correct_witness :
    ((findNode ['b'] (buildTrie [['a']]).root).isNone = true ∧
      Trie.CountWordsWithPrefix (buildTrie [['a']]) ['b'] = 0) ∧
      Trie.CountWordsWithPrefix (buildTrie [['a'], ['a', 'b'], ['c']]) ['a'] = 2 :=
  ⟨⟨by decide, (c1_count_words_with_pre_correct [['a']] ['b']).2 (by decide)⟩,
    (c1_count_words_with_pre_correct [['a'], ['a', 'b'], ['c']] ['a']).1.trans (by decide)⟩

/-- C2: a trie built from the empty trie by `Insert` calls answers
`CountStandaloneOccurrences w` with exactly the number of times `w` was
inserted, and answers 0 whenever the path for `w` is absent. -/
theorem c2_count_standalone_correct (ws : List (List Char)) (w : List Char) :
    Trie.CountStandaloneOccurrences (buildTrie ws) w =
        (ws.filter (fun v => decide (v = w))).length ∧
      ((findNode w (buildTrie ws).root).isNone = true →
        Trie.CountStandaloneOccurrences (buildTrie ws) w = 0) := by
  constructor
  · rw [buildTrie, countStandalone_foldl]
    rw [show NewTrie = ⟨emptyNode⟩ from rfl, countStandalone_emptyNode]
    omega
  · intro h
    cases hf : findNode w (buildTrie ws).root with
    | some n => rw [hf] at h; simp at h
    | none => simp [Trie.CountStandaloneOccurrences, hf]

/-- Witness for C2: the word inserted twice counts 2, a missing word counts 0. -/
theorem c2_count_standalone_correct_witness :
    ((findNode ['z'] (buildTrie [['a'], ['a']]).root).isNone = true ∧
      Trie.CountStandaloneOccurrences (buildTrie [['a'], ['a']]) ['z'] = 0) ∧
      Trie.CountStandaloneOccurrences (buildTrie [['a'], ['a', 'b'], ['a']]) ['a'] = 2 :=
  ⟨⟨by decide, (c2_count_standalone_correct [['a'], ['a']] ['z']).2 (by decide)⟩,
    (c2_count_standalone_correct [['a'], ['a', 'b'], ['a']] ['a']).1.trans (by decide)⟩

/-- `calcCurve` from for_identify_passwords.go: computes the piecewise
threshold from `standalone` and reports whether `followup` is below it
(the Go `switch` falls to `default: return false` when `standalone < 3000`). -/
def calcCurve (standalone followup : ℚ) : Bool :=
  if 3000 ≤ standalone ∧ standalone ≤ 5000 then decide (followup < 1)
  else if 5000 < standalone ∧ standalone ≤ 20000 then decide (followup < standalone / 500 - 10)
  else if 20000 < standalone then decide (followup < standalone / 120 - 135)
  else false

/-- `calculatePercentile` from calc_distribution.go: nearest-rank index
`percentile * length / 100` (integer division), clamped to the last index.
The Go code indexes the slice directly (panicking on an empty slice); the
embedding totalises that single out-of-domain case with a default of 0,
and every theorem about it assumes a non-empty list. -/
def calculatePercentile (data : List ℚ) (percentile : Nat) : ℚ :=
  let index := percentile * data.length / 100
  let clamped := if data.length ≤ index then data.length - 1 else index
  data.getD clamped 0

/-- `calculateAverage` from calc_distribution.go. -/
def calculateAverage (data : List ℚ) : ℚ := data.sum / (data.length : ℚ)

/-- The per-character body of `calculateAverageAndRange` from
calc_distribution.go: sort the percentage samples ascending
(`sort.Float64s`), then take average, 5th and 95th percentile of the sorted
list. -/
def calculateAverageAndRangeFor (samples : List ℚ) : ℚ × ℚ × ℚ :=
  let sorted := List.insertionSort (· ≤ ·) samples
  (calculateAverage sorted, calculatePercentile sorted 5, calculatePercentile sorted 95)

/-- C5: the ratio classifier flags a pair exactly when the following count is
strictly below the piecewise required minimum: never for standalone < 3000,
minimum 1 on [3000, 5000], standalone/500 - 10 on (5000, 20000],
standalone/120 - 135 above 20000; standalone = 20000 uses the middle branch,
whose value there is 30. -/
theorem c5_calc_curve_piecewise (s f : ℚ) :
    (calcCurve s f = true ↔
        (3000 ≤ s ∧ s ≤ 5000 ∧ f < 1) ∨
        (5000 < s ∧ s ≤ 20000 ∧ f < s / 500 - 10) ∨
        (20000 < s ∧ f < s / 120 - 135)) ∧
      (s < 3000 → calcCurve s f = false) ∧
      calcCurve 20000 f = decide (f < 30) := by
  refine ⟨?_, ?_, ?_⟩
  · unfold calcCurve
    split_ifs with h1 h2 h3
    · simp only [decide_eq_true_eq]
      constructor
      · intro hf
        exact Or.inl ⟨h1.1, h1.2, hf⟩
      · rintro (⟨_, _, hf⟩ | ⟨hc, _, _⟩ | ⟨hc, _⟩)
        · exact hf
        · exact absurd h1.2 (by linarith)
        · exact absurd h1.2 (by linarith)
    · simp only [decide_eq_true_eq]
      constructor
      · intro hf
        exact Or.inr (Or.inl ⟨h2.1, h2.2, hf⟩)
      · rintro (⟨ha, hb, _⟩ | ⟨_, _, hf⟩ | ⟨hc, _⟩)
        · exact absurd (And.intro ha hb) h1
        · exact hf
        · exact absurd h2.2 (by linarith)
    · simp only [decide_eq_true_eq]
      constructor
      · intro hf
        exact Or.inr (Or.inr ⟨h3, hf⟩)
      · rintro (⟨ha, hb, _⟩ | ⟨ha, hb, _⟩ | ⟨_, hf⟩)
        · exact absurd (And.intro ha hb) h1
        · exact absurd (And.intro ha hb) h2
        · exact hf
    · simp only [Bool.false_eq_true, false_iff]
      push_neg at h1 h2
      rintro (⟨ha, hb, _⟩ | ⟨ha, hb, _⟩ | ⟨ha, _⟩)
      · exact absurd hb (by simpa using h1 ha)
      · exact absurd hb (by simpa using h2 ha)
      · exact h3 ha
  · intro hs
    unfold calcCurve
    have h1 : ¬(3000 ≤ s ∧ s ≤ 5000) := fun hh => by linarith [hh.1]
    have h2 : ¬(5000 < s ∧ s ≤ 20000) := fun hh => by linarith [hh.1]
    have h3 : ¬(20000 < s) := by linarith
    simp [h1, h2, h3]
  · unfold calcCurve
    norm_num

/-- Witness for C5: standalone = 2000 is below 3000, so never flagged. -/
theorem c5_calc_curve_piecewise_witness :
    (2000 : ℚ) < 3000 ∧ calcCurve 2000 (-5) = false :=
  ⟨by norm_num, (c5_calc_curve_piecewise 2000 (-5)).2.1 (by norm_num)⟩

/-- C6: for a non-empty list, `calculatePercentile` returns the element at
the nearest-rank index `floor(percentile * N / 100)` clamped to `N - 1`
(no interpolation). -/
theorem c6_percentile_nearest_rank (data : List ℚ) (p : Nat) (h : data ≠ []) :
    calculatePercentile data p =
      data.getD (min (p * data.length / 100) (data.length - 1)) 0 := by
  have hlen : 0 < data.length := List.length_pos.mpr h
  simp only [calculatePercentile]
  split_ifs with hle
  · congr 1
    omega
  · congr 1
    omega

/-- Witness for C6: for sorted samples 1..10 the 5th percentile is the
element at index 0, namely 1, and the 95th percentile is the element at
index 9, namely 10. -/
theorem c6_percentile_nearest_rank_witness :
    ([1, 2, 3, 4, 5, 6, 7, 8, 9, 10] : List ℚ) ≠ [] ∧
      calculatePercentile [1, 2, 3, 4, 5, 6, 7, 8, 9, 10] 5 = 1 ∧
      calculatePercentile [1, 2, 3, 4, 5, 6, 7, 8, 9, 10] 95 = 10 :=
  ⟨by decide,
    (c6_percentile_nearest_rank [1, 2, 3, 4, 5, 6, 7, 8, 9, 10] 5 (by decide)).trans
      (by decide),
    (c6_percentile_nearest_rank [1, 2, 3, 4, 5, 6, 7, 8, 9, 10] 95 (by decide)).trans
      (by decide)⟩

/-- C8: the per-character baseline triple (average, lower bound, upper bound)
is invariant under permutation of the sample list: the list is sorted before
the average and both percentiles are computed, so appending order never
matters. -/
theorem c8_baseline_order_independent (l1 l2 : List ℚ) (h : l1.Perm l2) :
    calculateAverageAndRangeFor l1 = calculateAverageAndRangeFor l2 := by
  have hs : List.insertionSort (· ≤ ·) l1 = List.insertionSort (· ≤ ·) l2 :=
    List.eq_of_perm_of_sorted
      ((List.perm_insertionSort _ l1).trans (h.trans (List.perm_insertionSort _ l2).symm))
      (List.sorted_insertionSort _ l1) (List.sorted_insertionSort _ l2)
  simp [calculateAverageAndRangeFor, hs]

/-- Witness for C8: swapping two samples leaves the baseline triple unchanged. -/
theorem c8_baseline_order_independent_witness :
    ([2, 1] : List ℚ).Perm [1, 2] ∧
      calculateAverageAndRangeFor [2, 1] = calculateAverageAndRangeFor [1, 2] :=
  ⟨List.Perm.swap 1 2 [], c8_baseline_order_independent [2, 1] [1, 2] (List.Perm.swap 1 2 [])⟩

/-- `CharacterStats` from prefix_extractor.go. -/
structure CharacterStats where
  Average : ℚ
  MinRange : ℚ
  MaxRange : ℚ
deriving DecidableEq

/-- `isDistributionOutlier` from prefix_extractor.go: observed value strictly
above the baseline upper bound (the `char` argument is unused by the Go body). -/
def isDistributionOutlier (_c : Char) (percentage : ℚ) (stats : CharacterStats) : Bool :=
  decide (percentage > stats.MaxRange)

/-- `collectFollowingChars` (identical in calc_distribution.go and
prefix_extractor.go): empty when the path is absent, else each immediate
child paired with `countWordsInSubTrie` of that child. -/
def collectFollowingChars (passTrie : Trie) (pre : List Char) : List (Char × Nat) :=
  match findNode pre passTrie.root with
  | none => []
  | some n => n.children.map (fun ct => (ct.1, countWordsInSubTrie ct.2))

/-- Summing the values of the following-character map
(`totalFollowingCount` loops in both scanners). -/
def sumCounts (l : List (Char × Nat)) : Nat := (l.map (fun ck => ck.2)).sum

/-- The observed value the outlier detector computes per following character:
`float64(count) / float64(totalFollowingCount)` in `ScanForSuspiciousPrefixes`. -/
def observedPct (count total : Nat) : ℚ := (count : ℚ) / (total : ℚ)

/-- The value the distribution aggregator records per following character:
`(float64(count) / float64(total)) * 100` in `aggregateCharacterDistributions`. -/
def aggregatedPct (count total : Nat) : ℚ := ((count : ℚ) / (total : ℚ)) * 100

/-- The per-character test of the outlier loop in `ScanForSuspiciousPrefixes`:
the character needs an entry in `GlobalCharStats`, must pass
`isDistributionOutlier`, and its observed value must exceed the 0.005 floor. -/
def charIsOutlier (g : Char → Option CharacterStats) (total count : Nat) (c : Char) : Bool :=
  match g c with
  | some stats =>
      if isDistributionOutlier c (observedPct count total) stats then
        decide (observedPct count total > (0.005 : ℚ))
      else false
  | none => false

/-- `outlierFound` in `ScanForSuspiciousPrefixes`: a report block is written
for a prefix exactly when this is true. -/
def suspiciousRecordEmitted (g : Char → Option CharacterStats) (t : Trie)
    (pre : List Char) : Bool :=
  let fcc := collectFollowingChars t pre
  let total := sumCounts fcc
  fcc.any (fun ck => charIsOutlier g total ck.2 ck.1)

/-- C3: a following character with a baseline entry is an outlier iff its
observed value strictly exceeds the baseline upper bound and strictly exceeds
the absolute floor 1/200 (= 0.5%), and a report record is emitted for a
prefix iff at least one of its following characters is an outlier. -/
theorem c3_outlier_iff_strict (g : Char → Option CharacterStats) (total count : Nat)
    (c : Char) (st : CharacterStats) (t : Trie) (pre : List Char) (h : g c = some st) :
    (charIsOutlier g total count c = true ↔
        (observedPct count total > st.MaxRange ∧ observedPct count total > 1 / 200)) ∧
      (suspiciousRecordEmitted g t pre = true ↔
        ∃ ck ∈ collectFollowingChars t pre,
          charIsOutlier g (sumCounts (collectFollowingChars t pre)) ck.2 ck.1 = true) := by
  constructor
  · have hfloor : (0.005 : ℚ) = 1 / 200 := by norm_num
    simp only [charIsOutlier, h, isDistributionOutlier, hfloor]
    split_ifs with hout
    · simp only [decide_eq_true_eq] at hout ⊢
      exact ⟨fun hf => ⟨hout, hf⟩, fun hf => hf.2⟩
    · simp only [decide_eq_true_eq] at hout
      simp only [Bool.false_eq_true, false_iff]
      intro hf
      exact hout hf.1
  · simp [suspiciousRecordEmitted, List.any_eq_true]

/-- Witness for C3 at a concrete baseline, trie and prefix. -/
theorem c3_outlier_iff_strict_witness :
    (fun c => if c = 'a' then some (⟨0, 0, 1 / 1000⟩ : CharacterStats) else none) 'a' =
        some (⟨0, 0, 1 / 1000⟩ : CharacterStats) ∧
      ((charIsOutlier
            (fun c => if c = 'a' then some (⟨0, 0, 1 / 1000⟩ : CharacterStats) else none)
            1 1 'a' = true ↔
          (observedPct 1 1 > (1 : ℚ) / 1000 ∧ observedPct 1 1 > 1 / 200)) ∧
        (suspiciousRecordEmitted
            (fun c => if c = 'a' then some (⟨0, 0, 1 / 1000⟩ : CharacterStats) else none)
            (buildTrie [['x', 'a']]) ['x'] = true ↔
          ∃ ck ∈ collectFollowingChars (buildTrie [['x', 'a']]) ['x'],
            charIsOutlier
              (fun c => if c = 'a' then some (⟨0, 0, 1 / 1000⟩ : CharacterStats) else none)
              (sumCounts (collectFollowingChars (buildTrie [['x', 'a']]) ['x']))
              ck.2 ck.1 = true)) :=
  ⟨rfl,
    c3_outlier_iff_strict
      (fun c => if c = 'a' then some (⟨0, 0, 1 / 1000⟩ : CharacterStats) else none)
      1 1 'a' ⟨0, 0, 1 / 1000⟩ (buildTrie [['x', 'a']]) ['x'] rfl⟩

/-- C4 (refuted; code bug): the detector feeds `count/total` to the baseline
comparison while the aggregator records `count/total * 100`; the two differ by
a factor of 100, e.g. for a single following character (count 1 of total 1)
the detector compares 1 where the aggregator records 100. -/
theorem c4_detector_aggregator_scale_mismatch :
    observedPct 1 1 = 1 ∧ aggregatedPct 1 1 = 100 ∧ observedPct 1 1 ≠ aggregatedPct 1 1 ∧
      ∀ count total : Nat, aggregatedPct count total = 100 * observedPct count total := by
  refine ⟨by norm_num [observedPct], by norm_num [aggregatedPct],
    by norm_num [observedPct, aggregatedPct], ?_⟩
  intro count total
  simp only [observedPct, aggregatedPct]
  ring

mutual

/-- Invariant of tries built by `Insert`: every child in the trie has a
subtree total of at least 1. -/
def wfNode : TrieNode → Bool
  | .mk cs _ => wfChildren cs

/-- `wfNode` over a children list, also requiring each entry's subtree total
to be at least 1. -/
def wfChildren : List (Char × TrieNode) → Bool
  | [] => true
  | (_, t) :: rest => (decide (1 ≤ countWordsInSubTrie t) && wfNode t) && wfChildren rest

end

lemma wfNode_emptyNode : wfNode emptyNode = true := rfl

lemma wfChildren_lookup (cs : List (Char × TrieNode)) (c : Char) (child : TrieNode)
    (h : lookupChild cs c = some child) (hw : wfChildren cs = true) :
    1 ≤ countWordsInSubTrie child ∧ wfNode child = true := by
  induction cs with
  | nil => simp [lookupChild] at h
  | cons x rest ih =>
      obtain ⟨e, t⟩ := x
      simp only [wfChildren, Bool.and_eq_true, decide_eq_true_eq] at hw
      by_cases he : e = c
      · simp [lookupChild, he] at h
        subst h
        exact ⟨hw.1.1, hw.1.2⟩
      · simp [lookupChild, he] at h
        exact ih h hw.2

lemma wfChildren_replaceChild (cs : List (Char × TrieNode)) (c : Char) (n : TrieNode)
    (hw : wfChildren cs = true) (h1 : 1 ≤ countWordsInSubTrie n) (h2 : wfNode n = true) :
    wfChildren (replaceChild cs c n) = true := by
  induction cs with
  | nil => simp [replaceChild, wfChildren]
  | cons x rest ih =>
      obtain ⟨e, t⟩ := x
      simp only [wfChildren, Bool.and_eq_true, decide_eq_true_eq] at hw
      by_cases he : e = c
      · simp [replaceChild, he, wfChildren, h1, h2, hw.2]
      · simp only [replaceChild, he, if_false, wfChildren, Bool.and_eq_true,
          decide_eq_true_eq]
        exact ⟨⟨hw.1.1, hw.1.2⟩, ih hw.2⟩

lemma wfChildren_append_one (cs : List (Char × TrieNode)) (c : Char) (x : TrieNode)
    (hw : wfChildren cs = true) (h1 : 1 ≤ countWordsInSubTrie x) (h2 : wfNode x = true) :
    wfChildren (cs ++ [(c, x)]) = true := by
  induction cs with
  | nil => simp [wfChildren, h1, h2]
  | cons y rest ih =>
      obtain ⟨e, t⟩ := y
      simp only [wfChildren, Bool.and_eq_true, decide_eq_true_eq] at hw
      simp only [List.cons_append, wfChildren, Bool.and_eq_true, decide_eq_true_eq]
      exact ⟨⟨hw.1.1, hw.1.2⟩, ih hw.2⟩

lemma wfNode_insertNode (w : List Char) (n : TrieNode) (h : wfNode n = true) :
    wfNode (insertNode w n) = true := by
  induction w generalizing n with
  | nil =>
      obtain ⟨cs, k⟩ := n
      simpa [insertNode, wfNode] using h
  | cons c w ih =>
      obtain ⟨cs, k⟩ := n
      simp only [wfNode] at h
      cases hl : lookupChild cs c with
      | some child =>
          obtain ⟨hc1, hc2⟩ := wfChildren_lookup cs c child hl h
          have hcount := countWordsInSubTrie_insertNode w child
          simp only [insertNode, hl, wfNode]
          exact wfChildren_replaceChild cs c (insertNode w child) h (by omega) (ih child hc2)
      | none =>
          have hcount := countWordsInSubTrie_insertNode w emptyNode
          rw [countWordsInSubTrie_emptyNode] at hcount
          simp only [insertNode, hl, wfNode]
          exact wfChildren_append_one cs c (insertNode w emptyNode) h (by omega)
            (ih emptyNode wfNode_emptyNode)

lemma wfNode_findNode (p : List Char) (n m : TrieNode) (h : wfNode n = true)
    (hf : findNode p n = some m) : wfNode m = true := by
  induction p generalizing n with
  | nil =>
      simp [findNode] at hf
      subst hf
      exact h
  | cons c p ih =>
      obtain ⟨cs, k⟩ := n
      simp only [wfNode] at h
      cases hl : lookupChild cs c with
      | some child =>
          simp only [findNode, hl] at hf
          exact ih child (wfChildren_lookup cs c child hl h).2 hf
      | none => simp [findNode, hl] at hf

lemma wfNode_buildTrie (ws : List (List Char)) : wfNode (buildTrie ws).root = true := by
  suffices hgen : ∀ t : Trie, wfNode t.root = true →
      wfNode ((ws.foldl Trie.Insert t).root) = true by
    exact hgen NewTrie wfNode_emptyNode
  induction ws with
  | nil => intro t ht; simpa using ht
  | cons w ws ih =>
      intro t ht
      rw [List.foldl_cons]
      exact ih (t.Insert w) (wfNode_insertNode w t.root ht)

lemma wfChildren_map_counts (cs : List (Char × TrieNode)) (hw : wfChildren cs = true) :
    ∀ ck ∈ cs.map (fun ct => (ct.1, countWordsInSubTrie ct.2)), 1 ≤ ck.2 := by
  induction cs with
  | nil => simp
  | cons x rest ih =>
      obtain ⟨e, t⟩ := x
      simp only [wfChildren, Bool.and_eq_true, decide_eq_true_eq] at hw
      intro ck hck
      simp only [List.map_cons, List.mem_cons] at hck
      cases hck with
      | inl hck => subst hck; exact hw.1.1
      | inr hck => exact ih hw.2 ck hck

/-- C10: in a trie built by `Insert` calls, every entry of the
following-character map has count at least 1, so whenever the map is
non-empty its total is at least 1 and the detector's division
`count / totalFollowingCount` never divides by zero. -/
theorem c10_total_following_positive (ws : List (List Char)) (pre : List Char) :
    (∀ ck ∈ collectFollowingChars (buildTrie ws) pre, 1 ≤ ck.2) ∧
      (collectFollowingChars (buildTrie ws) pre ≠ [] →
        1 ≤ sumCounts (collectFollowingChars (buildTrie ws) pre)) := by
  cases hf : findNode pre (buildTrie ws).root with
  | none => simp [collectFollowingChars, hf, sumCounts]
  | some n =>
      have hwf := wfNode_findNode pre (buildTrie ws).root n (wfNode_buildTrie ws) hf
      obtain ⟨cs, k⟩ := n
      simp only [wfNode] at hwf
      have hmem := wfChildren_map_counts cs hwf
      constructor
      · intro ck hck
        apply hmem
        simpa [collectFollowingChars, hf, TrieNode.children] using hck
      · intro hne
        simp only [collectFollowingChars, hf, TrieNode.children] at hne ⊢
        cases cs with
        | nil => simp at hne
        | cons x rest =>
            obtain ⟨e, t⟩ := x
            simp only [wfChildren, Bool.and_eq_true, decide_eq_true_eq] at hwf
            simp only [List.map_cons, sumCounts, List.sum_cons]
            have := hwf.1.1
            omega

/-- Witness for C10: inserting "ab" gives the prefix "a" one following
character with count 1. -/
theorem c10_total_following_positive_witness :
    (collectFollowingChars (buildTrie [['a', 'b']]) ['a'] ≠ [] ∧
      1 ≤ sumCounts (collectFollowingChars (buildTrie [['a', 'b']]) ['a'])) ∧
      ∀ ck ∈ collectFollowingChars (buildTrie [['a', 'b']]) ['a'], 1 ≤ ck.2 :=
  ⟨⟨by decide, (c10_total_following_positive [['a', 'b']] ['a']).2 (by decide)⟩,
    (c10_total_following_positive [['a', 'b']] ['a']).1⟩

/-- Go `strings.Split(line, ":")` over runes: split at every colon, keeping
empty fields (`""` splits to `[""]`). -/
def splitOnColon : List Char → List (List Char)
  | [] => [[]]
  | c :: rest =>
    if c = ':' then [] :: splitOnColon rest
    else
      match splitOnColon rest with
      | [] => [[c]]
      | h :: t2 => (c :: h) :: t2

/-- Go `strings.TrimSpace` over runes: drop leading and trailing whitespace
(`Char.isWhitespace` stands in for `unicode.IsSpace`; the claims settled here
only depend on the colon structure of the line). -/
def trimSpace (l : List Char) : List Char :=
  ((l.dropWhile Char.isWhitespace).reverse.dropWhile Char.isWhitespace).reverse

/-- The loop body of `LoadCredentialsFromFile` for one line: skip when
`strings.Split(line, ":")` has fewer than two fields, else trim field 1; skip
when the trimmed field is empty, else this is the password to insert. -/
def parseLine (line : List Char) : Option (List Char) :=
  let splitLine := splitOnColon line
  if splitLine.length < 2 then none
  else
    let password := trimSpace (splitLine.getD 1 [])
    if password = [] then none else some password

/-- Effect of one line of `LoadCredentialsFromFile` on the trie. -/
def processLine (t : Trie) (line : List Char) : Trie :=
  match parseLine line with
  | some pw => t.Insert pw
  | none => t

/-- Modelled from the spec's words for C7 only (to compare with `parseLine`
from the source): "the password is the whitespace-trimmed text after the
first colon", skipping lines without a colon and empty results. -/
def specPasswordAfterFirstColon (line : List Char) : Option (List Char) :=
  if line.any (fun c => c == ':') then
    let pw := trimSpace ((line.dropWhile (fun c => !(c == ':'))).tail)
    if pw = [] then none else some pw
  else none

lemma splitOnColon_ne_nil (l : List Char) : splitOnColon l ≠ [] := by
  cases l with
  | nil => simp [splitOnColon]
  | cons c rest =>
      by_cases hc : c = ':'
      · simp [splitOnColon, hc]
      · simp only [splitOnColon, hc, if_false]
        cases splitOnColon rest <;> simp

lemma splitOnColon_no_colon (a : List Char) (ha : ':' ∉ a) : splitOnColon a = [a] := by
  induction a with
  | nil => rfl
  | cons c rest ih =>
      have hc : ¬c = ':' := fun hh => ha (hh ▸ List.mem_cons_self c rest)
      have hrest : ':' ∉ rest := fun hh => ha (List.mem_cons_of_mem c hh)
      simp only [splitOnColon, hc, if_false, ih hrest]

lemma splitOnColon_split_at_first (a b : List Char) (ha : ':' ∉ a) :
    splitOnColon (a ++ ':' :: b) = a :: splitOnColon b := by
  induction a with
  | nil => simp [splitOnColon]
  | cons c rest ih =>
      have hc : ¬c = ':' := fun hh => ha (hh ▸ List.mem_cons_self c rest)
      have hrest : ':' ∉ rest := fun hh => ha (List.mem_cons_of_mem c hh)
      rw [List.cons_append]
      simp only [splitOnColon, hc, if_false]
      rw [ih hrest]

lemma splitOnColon_head (b : List Char) :
    (splitOnColon b).getD 0 [] = b.takeWhile (fun c => !(c == ':')) := by
  induction b with
  | nil => rfl
  | cons c rest ih =>
      by_cases hc : c = ':'
      · simp [splitOnColon, hc, List.takeWhile]
      · simp only [splitOnColon, hc, if_false]
        cases hs : splitOnColon rest with
        | nil => exact absurd hs (splitOnColon_ne_nil rest)
        | cons h t2 =>
            rw [hs] at ih
            simp only [List.getD, List.get?, Option.getD] at ih
            have hb : (c == ':') = false := by simp [hc]
            simp [List.takeWhile, hb, ← ih]

/-- C7 counterexample: on the line `u:a:b` the code inserts the field between
the first and second colon (`a`), not the whitespace-trimmed text after the
first colon (`a:b`) that the claim names. -/
theorem c7_after_first_colon_counterexample :
    parseLine ['u', ':', 'a', ':', 'b'] = some ['a'] ∧
      specPasswordAfterFirstColon ['u', ':', 'a', ':', 'b'] = some ['a', ':', 'b'] ∧
      parseLine ['u', ':', 'a', ':', 'b'] ≠
        specPasswordAfterFirstColon ['u', ':', 'a', ':', 'b'] := by
  refine ⟨by decide, by decide, by decide⟩

/-- C7 amended: a line with at least one colon inserts the whitespace-trimmed
second colon-separated field (the text between the first colon and the next
colon, if any); lines with no colon, and lines whose second field trims to
empty, insert nothing. -/
theorem c7_second_field_inserted (a b : List Char) (tr : Trie) (ha : ':' ∉ a) :
    (parseLine (a ++ ':' :: b) =
        (let pw := trimSpace (b.takeWhile (fun c => !(c == ':')));
          if pw = [] then none else some pw)) ∧
      parseLine a = none ∧ processLine tr a = tr := by
  have hsplit := splitOnColon_split_at_first a b ha
  have hnone : parseLine a = none := by
    simp [parseLine, splitOnColon_no_colon a ha]
  refine ⟨?_, hnone, ?_⟩
  · have hne := splitOnColon_ne_nil b
    simp only [parseLine, hsplit]
    cases hs : splitOnColon b with
    | nil => exact absurd hs hne
    | cons h t2 =>
        have hhead := splitOnColon_head b
        rw [hs] at hhead
        simp only [List.getD, List.get?, Option.getD] at hhead
        simp [hhead]
  · simp [processLine, hnone]

/-- Witness for the amended C7: `u:a:b` inserts exactly the word `a`. -/
theorem c7_second_field_inserted_witness :
    (':' ∉ ['u']) ∧
      (parseLine (['u'] ++ ':' :: ['a', ':', 'b']) =
          (let pw := trimSpace (['a', ':', 'b'].takeWhile (fun c => !(c == ':')));
            if pw = [] then none else some pw)) ∧
        parseLine ['u'] = none ∧ processLine NewTrie ['u'] = NewTrie :=
  ⟨by decide, c7_second_field_inserted ['u'] ['a', ':', 'b'] NewTrie (by decide)⟩

/-- One entry handed to a `filepath.Walk` callback: the path, the file name
(`info.Name()`), and whether the walk reports an access/read error for it
(`err != nil`).  The per-file work (building a trie and aggregating) is
abstracted to recording the processed path, which is all the error-handling
claims observe. -/
structure WalkEvent where
  path : String
  name : List Char
  accessErr : Bool

/-- Go `strings.HasSuffix` (over runes): `suffix` is a trailing segment of `s`. -/
def hasSuffix (s suffix : List Char) : Bool := isLeading suffix.reverse s.reverse

/-- The `_passwords.txt` file-name suffix both scanners and the generator
select on. -/
def passwordsSuffix : List Char :=
  ['_', 'p', 'a', 's', 's', 'w', 'o', 'r', 'd', 's', '.', 't', 'x', 't']

/-- Callback of `ScanForCharacterDistributions` (calc_distribution.go) and of
`ScanForSuspiciousPrefixes` (prefix_extractor.go): on `err != nil` it logs
and returns `nil`, so the walk continues; otherwise files with the
`_passwords.txt` suffix are processed. The second component is whether the
callback returns a non-nil error. -/
def scanStep (e : WalkEvent) (st : List String) : List String × Bool :=
  if e.accessErr then (st, false)
  else if hasSuffix e.name passwordsSuffix then (st ++ [e.path], false)
  else (st, false)

/-- Callback of `GeneratePrefixStatistics` (the prefix-statistics generator):
on `err != nil` it does `return err`, aborting the walk; otherwise files with
the `_passwords.txt` suffix are processed. -/
def genStep (e : WalkEvent) (st : List String) : List String × Bool :=
  if e.accessErr then (st, true)
  else if hasSuffix e.name passwordsSuffix then (st ++ [e.path], false)
  else (st, false)

/-- `filepath.Walk`: visit events in order; a callback returning a non-nil
error stops the walk and makes `Walk` return that error (second component
`true`). -/
def runWalk (f : WalkEvent → List String → List String × Bool) :
    List String → List WalkEvent → List String × Bool
  | st, [] => (st, false)
  | st, e :: rest =>
    let r := f e st
    if r.2 then (r.1, true) else runWalk f r.1 rest

lemma runWalk_scanStep_never_errors (st : List String) (evs : List WalkEvent) :
    (runWalk scanStep st evs).2 = false := by
  induction evs generalizing st with
  | nil => rfl
  | cons e rest ih =>
      have hstep : (scanStep e st).2 = false := by
        simp only [scanStep]
        split_ifs <;> rfl
      simp only [runWalk, hstep, if_false]
      exact ih (scanStep e st).1

/-- C9 counterexample: in the prefix-statistics run mode, a single file
access error makes the walk return that error immediately — the remaining
files (here a `_passwords.txt` file) are never processed, and the run aborts
(`GeneratePrefixStatistics` returns the error and its `main` exits fatally). -/
theorem c9_per_file_error_counterexample :
    runWalk genStep []
        [⟨"corpus/bad", ['b', 'a', 'd'], true⟩,
          ⟨"corpus/a_passwords.txt", 'a' :: passwordsSuffix, false⟩] = ([], true) ∧
      runWalk scanStep []
        [⟨"corpus/bad", ['b', 'a', 'd'], true⟩,
          ⟨"corpus/a_passwords.txt", 'a' :: passwordsSuffix, false⟩] =
        (["corpus/a_passwords.txt"], false) := by
  constructor
  · rfl
  · decide

/-- C9 amended: in the two scanner run modes a per-file access error is
skipped and the walk continues, and those walks never return an error from
the callback; in the prefix-statistics run mode a per-file access error is
returned from the callback and aborts the rest of the walk. -/
theorem c9_error_handling_by_mode (st : List String) (e : WalkEvent)
    (rest : List WalkEvent) (h : e.accessErr = true) :
    runWalk scanStep st (e :: rest) = runWalk scanStep st rest ∧
      (runWalk scanStep st (e :: rest)).2 = false ∧
      runWalk genStep st (e :: rest) = (st, true) := by
  have hscan : scanStep e st = (st, false) := by simp [scanStep, h]
  have hgen : genStep e st = (st, true) := by simp [genStep, h]
  refine ⟨?_, ?_, ?_⟩
  · simp [runWalk, hscan]
  · exact runWalk_scanStep_never_errors st (e :: rest)
  · simp [runWalk, hgen]

/-- Witness for the amended C9 at a concrete erroring event. -/
theorem c9_error_handling_by_mode_witness :
    (WalkEvent.mk "corpus/bad" ['b', 'a', 'd'] true).accessErr = true ∧
      (runWalk scanStep [] [⟨"corpus/bad", ['b', 'a', 'd'], true⟩] =
          runWalk scanStep [] [] ∧
        (runWalk scanStep [] [⟨"corpus/bad", ['b', 'a', 'd'], true⟩]).2 = false ∧
        runWalk genStep [] [⟨"corpus/bad", ['b', 'a', 'd'], true⟩] = ([], true)) :=
  ⟨rfl, c9_error_handling_by_mode [] ⟨"corpus/bad", ['b', 'a', 'd'], true⟩ [] rfl⟩

end DataCleaning
